import Mathlib

/-!
Shallow embedding of the three array routines of `cnn.ipynb`:
`convolution2d`, `convolution2d_with_padding` and `max_pooling2d`.

A numpy 2-D array is embedded as a list of rows of integers.  Numpy
slicing `a[i:i+k, j:j+k]` clamps at the array border, which `slice2d`
reproduces with `drop`/`take`; an elementwise product `A * B` followed by
`np.sum` demands equal shapes (otherwise numpy raises a broadcast error),
which `sumProd?` reproduces by returning `none` on a shape mismatch; and
`np.max` of an empty slice raises, which `maxSlice?` reproduces with
`List.max?`.  Each routine therefore returns an `Option`: `some` is a
normal run, `none` is a numpy error.
-/

abbrev Mat := List (List Int)

/-- Total cell accessor used to state theorems: entry `i j` of a matrix,
defaulting to `0` out of bounds. -/
def entry (m : Mat) (i j : Nat) : Int :=
  ((m[i]?.getD [])[j]?).getD 0

/-- An `n × n` matrix: `n` rows, each of length `n`. -/
def SquareMat (m : Mat) (n : Nat) : Prop :=
  m.length = n ∧ ∀ r ∈ m, r.length = n

instance (m : Mat) (n : Nat) : Decidable (SquareMat m n) := by
  unfold SquareMat; infer_instance

/-- Numpy slice `m[i:i+k, j:j+k]`: clamped at the borders. -/
def slice2d (m : Mat) (i j k : Nat) : Mat :=
  ((m.drop i).take k).map (fun r => (r.drop j).take k)

/-- Dot product of two rows of equal length; `none` on a length
mismatch (numpy broadcast error). -/
def dotRow? (a b : List Int) : Option Int :=
  if a.length = b.length then
    some ((a.zip b).foldr (fun p acc => p.1 * p.2 + acc) 0)
  else none

/-- `np.sum (A * B)` for two matrices of equal shape; `none` on a shape
mismatch (numpy broadcast error). -/
def sumProd? (a b : Mat) : Option Int :=
  if a.length = b.length then do
    let rows ← (a.zip b).mapM (fun p => dotRow? p.1 p.2)
    return rows.foldr (· + ·) 0
  else none

/-- `np.max` over all cells of a slice; `none` when the slice is empty
(numpy raises on an empty max). -/
def maxSlice? (m : Mat) : Option Int :=
  (m.foldr (fun r acc => r ++ acc) []).max?

/-- Zero padding of one row: `p` zeros on each side. -/
def padRow (r : List Int) (p : Nat) : List Int :=
  List.replicate p 0 ++ r ++ List.replicate p 0

/-- `np.pad(image, pad_width=p, mode=constant, constant_values=0)` for an
`n × n` image: `p` all-zero rows above and below, `p` zeros on each side
of every row. -/
def pad (m : Mat) (p : Nat) : Mat :=
  let n := m.length
  List.replicate p (List.replicate (n + 2 * p) 0)
    ++ m.map (fun r => padRow r p)
    ++ List.replicate p (List.replicate (n + 2 * p) 0)

/-- `convolution2d(image, kernel)` from the notebook:
`kernel_size = kernel.shape[0]`, `output_size = image.shape[0] - kernel_size + 1`
(computed in ℤ: numpy raises on `np.zeros` of a negative size, hence the
guard), and cell `(i, j)` of the output is
`np.sum(image[i:i+kernel_size, j:j+kernel_size] * kernel)`. -/
def convolution2d (image kernel : Mat) : Option Mat :=
  let ks := kernel.length
  let outInt : Int := (image.length : Int) - ks + 1
  if outInt < 0 then none
  else
    (List.range outInt.toNat).mapM (fun i =>
      (List.range outInt.toNat).mapM (fun j =>
        sumProd? (slice2d image i j ks) kernel))

/-- `convolution2d_with_padding(image, kernel, padding)` from the notebook:
the image is zero-padded by `padding` on every side, and the output size is
fixed to `image.shape[0]` regardless of the kernel size and the padding. -/
def convolution2d_with_padding (image kernel : Mat) (padding : Nat) : Option Mat :=
  let ks := kernel.length
  let padded := pad image padding
  let outSize := image.length
  (List.range outSize).mapM (fun i =>
    (List.range outSize).mapM (fun j =>
      sumProd? (slice2d padded i j ks) kernel))

/-- `max_pooling2d(image, pool_size, stride)` from the notebook:
`output_size = (image.shape[0] - pool_size) // stride + 1` (Python floor
division, computed in ℤ; numpy raises on `np.zeros` of a negative size and
Python raises on division by zero, hence the guards), and cell `(i, j)` of
the output is `np.max(image[i*stride:i*stride+pool_size, j*stride:j*stride+pool_size])`. -/
def max_pooling2d (image : Mat) (pool_size stride : Nat) : Option Mat :=
  if stride = 0 then none
  else
    let outInt : Int := ((image.length : Int) - pool_size) / stride + 1
    if outInt < 0 then none
    else
      (List.range outInt.toNat).mapM (fun i =>
        (List.range outInt.toNat).mapM (fun j =>
          maxSlice? (slice2d image (i * stride) (j * stride) pool_size)))

/-- The fixed 5×5 input image of the notebook. -/
def input_image : Mat :=
  [[1, 2, 3, 4, 5],
   [6, 7, 8, 9, 10],
   [11, 12, 13, 14, 15],
   [16, 17, 18, 19, 20],
   [21, 22, 23, 24, 25]]

/-- The fixed 3×3 vertical-edge kernel of the notebook. -/
def filter_kernel : Mat :=
  [[1, 0, -1],
   [1, 0, -1],
   [1, 0, -1]]


/-! ### Generic helpers about `mapM` and `foldr` in the `Option` monad -/

theorem mapM_eq_some_map {α β : Type} (f : α → Option β) (g : α → β) :
    ∀ l : List α, (∀ a ∈ l, f a = some (g a)) → l.mapM f = some (l.map g)
  | [], _ => by simp only [List.mapM_nil, List.map_nil, Option.pure_def]
  | a :: l, h => by
    have ha := h a (List.mem_cons_self a l)
    have hl := mapM_eq_some_map f g l (fun x hx => h x (List.mem_cons_of_mem a hx))
    rw [List.mapM_cons, ha, hl]
    simp only [Option.bind_eq_bind, Option.some_bind, Option.pure_def, List.map_cons]

theorem length_of_mapM {α β : Type} (f : α → Option β) :
    ∀ (l : List α) (l' : List β), l.mapM f = some l' → l'.length = l.length
  | [], l', h => by
    simp only [List.mapM_nil, Option.pure_def, Option.some.injEq] at h
    simp [← h]
  | a :: l, l', h => by
    simp only [List.mapM_cons, Option.pure_def, Option.bind_eq_bind,
      Option.bind_eq_some, Option.some.injEq] at h
    obtain ⟨b, _, bs, hbs, rfl⟩ := h
    simp [length_of_mapM f l bs hbs]

theorem mem_of_mapM {α β : Type} (f : α → Option β) :
    ∀ (l : List α) (l' : List β), l.mapM f = some l' → ∀ b ∈ l', ∃ a ∈ l, f a = some b
  | [], l', h => by
    simp only [List.mapM_nil, Option.pure_def, Option.some.injEq] at h
    simp [← h]
  | a :: l, l', h => by
    simp only [List.mapM_cons, Option.pure_def, Option.bind_eq_bind,
      Option.bind_eq_some, Option.some.injEq] at h
    obtain ⟨b, hb, bs, hbs, rfl⟩ := h
    intro c hc
    rcases List.mem_cons.mp hc with rfl | hc'
    · exact ⟨a, List.mem_cons_self a l, hb⟩
    · obtain ⟨x, hx, hfx⟩ := mem_of_mapM f l bs hbs c hc'
      exact ⟨x, List.mem_cons_of_mem a hx, hfx⟩

theorem foldr_add_eq_sum :
    ∀ l : List Int, l.foldr (· + ·) 0 = ∑ n ∈ Finset.range l.length, l[n]?.getD 0
  | [] => by simp
  | a :: l => by
    simp only [List.foldr_cons, List.length_cons, Finset.sum_range_succ',
      List.getElem?_cons_succ, List.getElem?_cons_zero, Option.getD_some]
    rw [foldr_add_eq_sum l]
    ring

theorem zip_foldr_eq :
    ∀ (a b : List Int), a.length = b.length →
      (a.zip b).foldr (fun p acc => p.1 * p.2 + acc) 0 =
        ∑ n ∈ Finset.range a.length, a[n]?.getD 0 * b[n]?.getD 0
  | [], [], _ => by simp
  | [], _ :: _, h => by simp at h
  | _ :: _, [], h => by simp at h
  | a :: as, b :: bs, h => by
    have h' : as.length = bs.length := by simpa using h
    simp only [List.zip_cons_cons, List.foldr_cons, List.length_cons,
      Finset.sum_range_succ', List.getElem?_cons_succ, List.getElem?_cons_zero,
      Option.getD_some]
    rw [zip_foldr_eq as bs h']
    ring

/-! ### Values of `dotRow?`, `sumProd?` on well-shaped inputs -/

theorem dotRow?_eq (a b : List Int) (h : a.length = b.length) :
    dotRow? a b = some (∑ n ∈ Finset.range a.length, a[n]?.getD 0 * b[n]?.getD 0) := by
  rw [dotRow?, if_pos h, zip_foldr_eq a b h]

theorem entry_eq_getElem (m : Mat) (i j : Nat) (hi : i < m.length)
    (hj : j < m[i].length) : entry m i j = m[i][j] := by
  simp [entry, List.getElem?_eq_getElem hi, List.getElem?_eq_getElem hj]

theorem sumProd?_eq (a b : Mat) (k : Nat) (hlen : a.length = b.length)
    (ha : ∀ r ∈ a, r.length = k) (hb : ∀ r ∈ b, r.length = k) :
    sumProd? a b =
      some (∑ m ∈ Finset.range a.length, ∑ n ∈ Finset.range k,
        entry a m n * entry b m n) := by
  rw [sumProd?]
  rw [if_pos hlen]
  have hmap : (a.zip b).mapM (fun p => dotRow? p.1 p.2) =
      some ((a.zip b).map fun p =>
        ∑ n ∈ Finset.range k, p.1[n]?.getD 0 * p.2[n]?.getD 0) := by
    apply mapM_eq_some_map
    intro p hp
    obtain ⟨h1, h2⟩ := List.of_mem_zip hp
    have hl1 : p.1.length = k := ha p.1 h1
    have hl2 : p.2.length = k := hb p.2 h2
    rw [dotRow?_eq p.1 p.2 (by rw [hl1, hl2]), hl1]
  rw [hmap]
  simp only [Option.bind_eq_bind, Option.some_bind, Option.pure_def, Option.some.injEq]
  rw [foldr_add_eq_sum]
  have hzlen : ((a.zip b).map fun p =>
      ∑ n ∈ Finset.range k, p.1[n]?.getD 0 * p.2[n]?.getD 0).length = a.length := by
    simp [List.length_zip, hlen]
  rw [hzlen]
  apply Finset.sum_congr rfl
  intro m hm
  have hma : m < a.length := Finset.mem_range.mp hm
  have hmb : m < b.length := hlen ▸ hma
  have hmz : m < (a.zip b).length := by simp [List.length_zip]; omega
  have hmz' : m < ((a.zip b).map fun p =>
      ∑ n ∈ Finset.range k, p.1[n]?.getD 0 * p.2[n]?.getD 0).length := by
    simpa using hmz
  rw [List.getElem?_eq_getElem hmz', Option.getD_some, List.getElem_map]
  have hz : (a.zip b)[m] = (a[m], b[m]) := List.getElem_zip
  rw [hz]
  apply Finset.sum_congr rfl
  intro n _
  have e1 : entry a m n = a[m][n]?.getD 0 := by
    simp [entry, List.getElem?_eq_getElem hma]
  have e2 : entry b m n = b[m][n]?.getD 0 := by
    simp [entry, List.getElem?_eq_getElem hmb]
  rw [e1, e2]

/-! ### Shape and entries of `slice2d` and `pad` -/

theorem slice2d_length (m : Mat) (i j k : Nat) (h : i + k ≤ m.length) :
    (slice2d m i j k).length = k := by
  simp only [slice2d, List.length_map, List.length_take, List.length_drop]
  omega

theorem slice2d_row_length (m : Mat) (N i j k : Nat)
    (hrows : ∀ r ∈ m, r.length = N) (hjk : j + k ≤ N) :
    ∀ r ∈ slice2d m i j k, r.length = k := by
  intro r hr
  simp only [slice2d, List.mem_map] at hr
  obtain ⟨r₀, hr₀, rfl⟩ := hr
  have hr₀m : r₀ ∈ m := List.mem_of_mem_drop (List.mem_of_mem_take hr₀)
  have := hrows r₀ hr₀m
  simp only [List.length_take, List.length_drop, this]
  omega

theorem slice2d_entry (m : Mat) (N k i j a b : Nat) (hsq : SquareMat m N)
    (hik : i + k ≤ N) (hjk : j + k ≤ N) (ha : a < k) (hb : b < k) :
    entry (slice2d m i j k) a b = entry m (i + a) (j + b) := by
  obtain ⟨hlen, hrows⟩ := hsq
  have hia : i + a < m.length := by omega
  have hrowlen : m[i + a].length = N :=
    hrows _ (List.getElem_mem hia)
  have hjb : j + b < m[i + a].length := by omega
  have hslen : (slice2d m i j k).length = k :=
    slice2d_length m i j k (by omega)
  have has : a < (slice2d m i j k).length := by omega
  have hsrow : (slice2d m i j k)[a] = (m[i + a].drop j).take k := by
    simp only [slice2d, List.getElem_map, List.getElem_take, List.getElem_drop]
  have hbs : b < (slice2d m i j k)[a].length := by
    rw [hsrow]
    simp only [List.length_take, List.length_drop]
    omega
  rw [entry_eq_getElem _ _ _ has hbs, entry_eq_getElem _ _ _ hia hjb]
  simp only [slice2d, List.getElem_map, List.getElem_take, List.getElem_drop]

theorem pad_square (m : Mat) (N p : Nat) (hsq : SquareMat m N) :
    SquareMat (pad m p) (N + 2 * p) := by
  obtain ⟨hlen, hrows⟩ := hsq
  constructor
  · simp [pad, hlen]; omega
  · intro r hr
    simp only [pad, hlen, List.mem_append, List.mem_replicate, List.mem_map] at hr
    rcases hr with (⟨_, rfl⟩ | ⟨r₀, hr₀, rfl⟩) | ⟨_, rfl⟩
    · simp
    · simp [padRow, hrows r₀ hr₀]; omega
    · simp

/-! ### Spec-side convolution: the sliding-window weighted sum of the claims -/

/-- Cell `(i, j)` of the claimed convolution output: the sliding-window
weighted sum `∑ m ∑ n image[i+m][j+n] * kernel[m][n]`. -/
def convCell (image kernel : Mat) (k i j : Nat) : Int :=
  ∑ m ∈ Finset.range k, ∑ n ∈ Finset.range k,
    entry image (i + m) (j + n) * entry kernel m n

/-- The claimed convolution output grid of size `sz × sz`. -/
def convSpec (image kernel : Mat) (sz k : Nat) : Mat :=
  (List.range sz).map fun i => (List.range sz).map fun j => convCell image kernel k i j

theorem sumProd?_slice (m kernel : Mat) (N k i j : Nat) (hsq : SquareMat m N)
    (hker : SquareMat kernel k) (hik : i + k ≤ N) (hjk : j + k ≤ N) :
    sumProd? (slice2d m i j k) kernel = some (convCell m kernel k i j) := by
  have hslen : (slice2d m i j k).length = k :=
    slice2d_length m i j k (by rw [hsq.1]; omega)
  have hsrows : ∀ r ∈ slice2d m i j k, r.length = k :=
    slice2d_row_length m N i j k hsq.2 hjk
  rw [sumProd?_eq (slice2d m i j k) kernel k (by rw [hslen, hker.1]) hsrows hker.2,
    hslen]
  congr 1
  apply Finset.sum_congr rfl
  intro a hha
  apply Finset.sum_congr rfl
  intro b hhb
  rw [slice2d_entry m N k i j a b hsq hik hjk (Finset.mem_range.mp hha)
    (Finset.mem_range.mp hhb)]

/-! ### The notebook functions on well-shaped inputs -/

theorem convolution2d_eq_spec (image kernel : Mat) (N k : Nat)
    (hI : SquareMat image N) (hK : SquareMat kernel k) (hk : k ≤ N) :
    convolution2d image kernel = some (convSpec image kernel (N - k + 1) k) := by
  rw [convolution2d]
  have hks : kernel.length = k := hK.1
  have hlen : image.length = N := hI.1
  rw [hks, hlen]
  have hout : ¬ ((N : Int) - k + 1 < 0) := by omega
  rw [if_neg hout]
  have htoNat : ((N : Int) - k + 1).toNat = N - k + 1 := by omega
  rw [htoNat, convSpec]
  apply mapM_eq_some_map
  intro i hi
  have hi' : i < N - k + 1 := List.mem_range.mp hi
  apply mapM_eq_some_map
  intro j hj
  have hj' : j < N - k + 1 := List.mem_range.mp hj
  exact sumProd?_slice image kernel N k i j hI hK (by omega) (by omega)

theorem convolution2d_with_padding_eq_spec (image kernel : Mat) (N k p : Nat)
    (hI : SquareMat image N) (hK : SquareMat kernel k) (hkp : k ≤ 2 * p + 1) :
    convolution2d_with_padding image kernel p =
      some (convSpec (pad image p) kernel N k) := by
  rw [convolution2d_with_padding, hK.1, hI.1, convSpec]
  apply mapM_eq_some_map
  intro i hi
  apply mapM_eq_some_map
  intro j hj
  have hpad := pad_square image N p hI
  have hi' : i < N := List.mem_range.mp hi
  have hj' : j < N := List.mem_range.mp hj
  exact sumProd?_slice (pad image p) kernel (N + 2 * p) k i j hpad hK
    (by omega) (by omega)

/-! ### Max pooling: characterizing `maxSlice?` on a full window -/

instance : Std.Antisymm (fun (a b : Int) => a ≤ b) where
  antisymm h1 h2 := le_antisymm h1 h2

theorem int_max?_eq_some_iff (xs : List Int) (v : Int) :
    xs.max? = some v ↔ v ∈ xs ∧ ∀ b ∈ xs, b ≤ v :=
  List.max?_eq_some_iff (fun a => le_refl a) (fun a b => max_choice a b)
    (fun _ _ _ => max_le_iff)

theorem mem_foldr_append {α : Type} :
    ∀ (L : List (List α)) (x : α),
      x ∈ L.foldr (fun r acc => r ++ acc) [] ↔ ∃ l ∈ L, x ∈ l
  | [], x => by simp
  | l :: L, x => by simp [mem_foldr_append L x]

theorem mem_slice_iff (m : Mat) (N p i j : Nat) (hsq : SquareMat m N)
    (hik : i + p ≤ N) (hjk : j + p ≤ N) (x : Int) :
    x ∈ (slice2d m i j p).foldr (fun r acc => r ++ acc) [] ↔
      ∃ a < p, ∃ b < p, x = entry m (i + a) (j + b) := by
  have hslen : (slice2d m i j p).length = p :=
    slice2d_length m i j p (by rw [hsq.1]; omega)
  rw [mem_foldr_append]
  constructor
  · rintro ⟨l, hl, hx⟩
    obtain ⟨a, ha, rfl⟩ := List.mem_iff_getElem.mp hl
    obtain ⟨b, hb, rfl⟩ := List.mem_iff_getElem.mp hx
    have hrlen : (slice2d m i j p)[a].length = p :=
      slice2d_row_length m N i j p hsq.2 hjk _ (List.getElem_mem ha)
    refine ⟨a, by omega, b, by omega, ?_⟩
    rw [← entry_eq_getElem _ _ _ ha hb,
      slice2d_entry m N p i j a b hsq hik hjk (by omega) (by omega)]
  · rintro ⟨a, ha, b, hb, rfl⟩
    have has : a < (slice2d m i j p).length := by omega
    refine ⟨(slice2d m i j p)[a], List.getElem_mem has, ?_⟩
    have hrlen : (slice2d m i j p)[a].length = p :=
      slice2d_row_length m N i j p hsq.2 hjk _ (List.getElem_mem has)
    have hbs : b < (slice2d m i j p)[a].length := by omega
    rw [← slice2d_entry m N p i j a b hsq hik hjk ha hb,
      entry_eq_getElem _ _ _ has hbs]
    exact List.getElem_mem hbs

theorem maxSlice?_spec (m : Mat) (N p i j : Nat) (hsq : SquareMat m N)
    (hp : 1 ≤ p) (hik : i + p ≤ N) (hjk : j + p ≤ N) :
    ∃ v, maxSlice? (slice2d m i j p) = some v ∧
      (∃ a < p, ∃ b < p, v = entry m (i + a) (j + b)) ∧
      (∀ a < p, ∀ b < p, entry m (i + a) (j + b) ≤ v) := by
  have hmem : entry m i j ∈ (slice2d m i j p).foldr (fun r acc => r ++ acc) [] := by
    rw [mem_slice_iff m N p i j hsq hik hjk]
    exact ⟨0, by omega, 0, by omega, by simp⟩
  have hne : (slice2d m i j p).foldr (fun r acc => r ++ acc) [] ≠ [] := by
    intro h
    rw [h] at hmem
    exact List.not_mem_nil _ hmem
  obtain ⟨v, hv⟩ : ∃ v, maxSlice? (slice2d m i j p) = some v := by
    rw [maxSlice?]
    rcases h : ((slice2d m i j p).foldr (fun r acc => r ++ acc) []).max? with _ | v
    · exact absurd (List.max?_eq_none_iff.mp h) hne
    · exact ⟨v, rfl⟩
  obtain ⟨hvmem, hvmax⟩ := (int_max?_eq_some_iff _ v).mp hv
  refine ⟨v, hv, ?_, ?_⟩
  · exact (mem_slice_iff m N p i j hsq hik hjk v).mp hvmem
  · intro a ha b hb
    apply hvmax
    rw [mem_slice_iff m N p i j hsq hik hjk]
    exact ⟨a, ha, b, hb, rfl⟩

theorem entry_map_range (sz : Nat) (f : Nat → Nat → Int) (i j : Nat)
    (hi : i < sz) (hj : j < sz) :
    entry ((List.range sz).map fun a => (List.range sz).map fun b => f a b) i j
      = f i j := by
  simp [entry, List.getElem?_map, List.getElem?_range hi, List.getElem?_range hj]

theorem max_pooling2d_eq_spec (image : Mat) (N p s : Nat) (hI : SquareMat image N)
    (hp1 : 1 ≤ p) (hpN : p ≤ N) (hs : 1 ≤ s) :
    max_pooling2d image p s =
      some ((List.range ((N - p) / s + 1)).map fun i =>
        (List.range ((N - p) / s + 1)).map fun j =>
          (maxSlice? (slice2d image (i * s) (j * s) p)).getD 0) := by
  rw [max_pooling2d, hI.1]
  rw [if_neg (by omega : ¬ s = 0)]
  have hcast : ((N : Int) - p) / s + 1 = (((N - p) / s + 1 : Nat) : Int) := by
    have h1 : ((N : Int) - p) = ((N - p : Nat) : Int) := by omega
    rw [h1, ← Int.ofNat_ediv]
    push_cast
    ring
  rw [hcast]
  rw [if_neg (not_lt.mpr (Int.natCast_nonneg ((N - p) / s + 1)))]
  rw [Int.toNat_natCast]
  apply mapM_eq_some_map
  intro i hi
  have hi' : i < (N - p) / s + 1 := List.mem_range.mp hi
  apply mapM_eq_some_map
  intro j hj
  have hj' : j < (N - p) / s + 1 := List.mem_range.mp hj
  have his : i * s + p ≤ N := by
    have : i ≤ (N - p) / s := by omega
    have := (Nat.le_div_iff_mul_le (by omega : 0 < s)).mp this
    omega
  have hjs : j * s + p ≤ N := by
    have : j ≤ (N - p) / s := by omega
    have := (Nat.le_div_iff_mul_le (by omega : 0 < s)).mp this
    omega
  obtain ⟨v, hv, _, _⟩ := maxSlice?_spec image N p (i * s) (j * s) hI hp1 his hjs
  rw [hv]
  simp

/-! ### Claim theorems -/

/-- C1: for every N×N numeric image and every k×k kernel with k ≤ N,
`convolution2d` returns an (N−k+1)×(N−k+1) grid whose cell (i, j) equals the
sliding-window weighted sum of the image window at (i, j) against the kernel. -/
theorem convolution2d_correct (image kernel : Mat) (N k : Nat)
    (hI : SquareMat image N) (hK : SquareMat kernel k) (hk : k ≤ N) :
    ∃ out, convolution2d image kernel = some out ∧
      out.length = N - k + 1 ∧ (∀ r ∈ out, r.length = N - k + 1) ∧
      ∀ i j, i < N - k + 1 → j < N - k + 1 →
        entry out i j = ∑ m ∈ Finset.range k, ∑ n ∈ Finset.range k,
          entry image (i + m) (j + n) * entry kernel m n := by
  refine ⟨convSpec image kernel (N - k + 1) k,
    convolution2d_eq_spec image kernel N k hI hK hk, ?_, ?_, ?_⟩
  · simp [convSpec]
  · intro r hr
    simp only [convSpec, List.mem_map] at hr
    obtain ⟨i, _, rfl⟩ := hr
    simp
  · intro i j hi hj
    rw [convSpec, entry_map_range _ _ i j hi hj, convCell]

/-- Witness for C1 at the notebook's 5×5 image and 3×3 kernel. -/
theorem convolution2d_correct_witness :
    ∃ out, convolution2d input_image filter_kernel = some out ∧
      out.length = 3 ∧ (∀ r ∈ out, r.length = 3) ∧
      ∀ i j, i < 3 → j < 3 →
        entry out i j = ∑ m ∈ Finset.range 3, ∑ n ∈ Finset.range 3,
          entry input_image (i + m) (j + n) * entry filter_kernel m n :=
  convolution2d_correct input_image filter_kernel 5 3 (by decide) (by decide)
    (by decide)

/-- C2: for every N×N image, pool size 1 ≤ p ≤ N and stride s ≥ 1,
`max_pooling2d` returns an M×M grid with M = (N−p)/s + 1 whose cell (i, j) is
the maximum of the p×p window of the image at offset (i·s, j·s). -/
theorem max_pooling2d_correct (image : Mat) (N p s : Nat) (hI : SquareMat image N)
    (hp1 : 1 ≤ p) (hpN : p ≤ N) (hs : 1 ≤ s) :
    ∃ out, max_pooling2d image p s = some out ∧
      out.length = (N - p) / s + 1 ∧ (∀ r ∈ out, r.length = (N - p) / s + 1) ∧
      ∀ i j, i < (N - p) / s + 1 → j < (N - p) / s + 1 →
        (∃ a < p, ∃ b < p, entry out i j = entry image (i * s + a) (j * s + b)) ∧
        (∀ a < p, ∀ b < p, entry image (i * s + a) (j * s + b) ≤ entry out i j) := by
  refine ⟨_, max_pooling2d_eq_spec image N p s hI hp1 hpN hs, ?_, ?_, ?_⟩
  · simp
  · intro r hr
    simp only [List.mem_map] at hr
    obtain ⟨i, _, rfl⟩ := hr
    simp
  · intro i j hi hj
    rw [entry_map_range _ _ i j hi hj]
    have his : i * s + p ≤ N := by
      have h1 : i ≤ (N - p) / s := by omega
      have h2 := (Nat.le_div_iff_mul_le (by omega : 0 < s)).mp h1
      omega
    have hjs : j * s + p ≤ N := by
      have h1 : j ≤ (N - p) / s := by omega
      have h2 := (Nat.le_div_iff_mul_le (by omega : 0 < s)).mp h1
      omega
    obtain ⟨v, hv, hex, hub⟩ := maxSlice?_spec image N p (i * s) (j * s) hI hp1 his hjs
    rw [hv]
    constructor
    · obtain ⟨a, ha, b, hb, hvab⟩ := hex
      exact ⟨a, ha, b, hb, by simpa using hvab⟩
    · intro a ha b hb
      simpa using hub a ha b hb

/-- Witness for C2 at the notebook's 5×5 image with pool size 2 and stride 2. -/
theorem max_pooling2d_correct_witness :
    ∃ out, max_pooling2d input_image 2 2 = some out ∧
      out.length = 2 ∧ (∀ r ∈ out, r.length = 2) ∧
      ∀ i j, i < 2 → j < 2 →
        (∃ a < 2, ∃ b < 2, entry out i j = entry input_image (i * 2 + a) (j * 2 + b)) ∧
        (∀ a < 2, ∀ b < 2, entry input_image (i * 2 + a) (j * 2 + b) ≤ entry out i j) :=
  max_pooling2d_correct input_image 5 2 2 (by decide) (by decide) (by decide)
    (by decide)

/-- C3: on the notebook's 5×5 input and 3×3 vertical-edge kernel, the
unpadded convolution is the constant −6 grid of size 3×3. -/
theorem feature_map_value :
    convolution2d input_image filter_kernel =
      some [[-6, -6, -6], [-6, -6, -6], [-6, -6, -6]] := by decide

/-- C4: on the notebook's 5×5 input and 3×3 vertical-edge kernel with
one-pixel zero padding, the convolution is exactly the 5×5 matrix printed in
the notebook. -/
theorem feature_map_padded_value :
    convolution2d_with_padding input_image filter_kernel 1 =
      some [[-9, -4, -4, -4, 13],
            [-21, -6, -6, -6, 27],
            [-36, -6, -6, -6, 42],
            [-51, -6, -6, -6, 57],
            [-39, -4, -4, -4, 43]] := by decide

/-- C5: on the notebook's 5×5 input, 2×2 stride-2 max pooling is exactly
[[7, 9], [17, 19]]. -/
theorem pooled_output_value :
    max_pooling2d input_image 2 2 = some [[7, 9], [17, 19]] := by decide

/-- A well-shaped 5×5 all-ones kernel, no larger than the 5×5 image. -/
def ones5 : Mat := List.replicate 5 (List.replicate 5 1)

/-- C6 counterexample: with a square 5×5 kernel no larger than the 5×5 image,
`convolution2d_with_padding` with one-pixel padding still errors: near the
border the clamped slice of the padded image is smaller than the kernel, a
numpy broadcast error. -/
theorem convolution2d_with_padding_error :
    SquareMat input_image 5 ∧ SquareMat ones5 5 ∧ (5 : Nat) ≤ 5 ∧
    convolution2d_with_padding input_image ones5 1 = none := by decide

/-- C6 (amended): on well-shaped inputs no array access goes out of bounds
and no error is reachable — for `convolution2d` when the kernel is no larger
than the image, for `convolution2d_with_padding` when the kernel size is
additionally at most 2·padding + 1 (so every window of the fixed N×N output
grid lies inside the padded image), and for `max_pooling2d` when the pool
window is nonempty and fits in the image and the stride is positive. -/
theorem no_error_on_wellformed :
    (∀ image kernel N k, SquareMat image N → SquareMat kernel k → k ≤ N →
      (convolution2d image kernel).isSome = true) ∧
    (∀ image kernel N k p, SquareMat image N → SquareMat kernel k →
      k ≤ 2 * p + 1 → (convolution2d_with_padding image kernel p).isSome = true) ∧
    (∀ image N p s, SquareMat image N → 1 ≤ p → p ≤ N → 1 ≤ s →
      (max_pooling2d image p s).isSome = true) := by
  refine ⟨?_, ?_, ?_⟩
  · intro image kernel N k hI hK hk
    rw [convolution2d_eq_spec image kernel N k hI hK hk]
    rfl
  · intro image kernel N k p hI hK hkp
    rw [convolution2d_with_padding_eq_spec image kernel N k p hI hK hkp]
    rfl
  · intro image N p s hI hp1 hpN hs
    rw [max_pooling2d_eq_spec image N p s hI hp1 hpN hs]
    rfl

/-- Witness for the amended C6 at the notebook's inputs. -/
theorem no_error_on_wellformed_witness :
    (convolution2d input_image filter_kernel).isSome = true ∧
    (convolution2d_with_padding input_image filter_kernel 1).isSome = true ∧
    (max_pooling2d input_image 2 2).isSome = true :=
  ⟨no_error_on_wellformed.1 input_image filter_kernel 5 3 (by decide) (by decide)
      (by decide),
   no_error_on_wellformed.2.1 input_image filter_kernel 5 3 1 (by decide)
      (by decide) (by decide),
   no_error_on_wellformed.2.2 input_image 5 2 2 (by decide) (by decide)
      (by decide) (by decide)⟩

/-! ### Mutation model: each function writes only to its own output array

Numpy assignment `output[i, j] = v` mutates in place.  To settle the frame
claim, each routine is re-embedded as a loop over an explicit state holding
the argument arrays and the output array being filled; every write the
notebook performs goes through `writeCell` on the `output` field, every read
comes from `image` or `kernel`. -/

structure RunState where
  image : Mat
  kernel : Mat
  output : Mat
deriving DecidableEq

/-- In-place write `a[i, j] = v`; `none` when the index is out of bounds
(numpy raises an IndexError). -/
def writeCell (m : Mat) (i j : Nat) (v : Int) : Option Mat := do
  let r ← m[i]?
  if j < r.length then some (m.set i (r.set j v)) else none

/-- `np.zeros((n, n))`. -/
def zerosMat (n : Nat) : Mat := List.replicate n (List.replicate n 0)

/-- One body iteration of the `convolution2d` loop. -/
def convStep (s : RunState) (i j : Nat) : Option RunState := do
  let v ← sumProd? (slice2d s.image i j s.kernel.length) s.kernel
  let out ← writeCell s.output i j v
  return { s with output := out }

/-- The `convolution2d` loops run on the explicit state. -/
def conv2dRun (image kernel : Mat) : Option RunState :=
  let outInt : Int := (image.length : Int) - kernel.length + 1
  if outInt < 0 then none
  else
    (List.range outInt.toNat).foldlM (fun s i =>
      (List.range outInt.toNat).foldlM (fun s j => convStep s i j) s)
      { image := image, kernel := kernel, output := zerosMat outInt.toNat }

/-- One body iteration of the `convolution2d_with_padding` loop. -/
def convPadStep (p : Nat) (s : RunState) (i j : Nat) : Option RunState := do
  let v ← sumProd? (slice2d (pad s.image p) i j s.kernel.length) s.kernel
  let out ← writeCell s.output i j v
  return { s with output := out }

/-- The `convolution2d_with_padding` loops run on the explicit state. -/
def conv2dPadRun (image kernel : Mat) (p : Nat) : Option RunState :=
  (List.range image.length).foldlM (fun s i =>
    (List.range image.length).foldlM (fun s j => convPadStep p s i j) s)
    { image := image, kernel := kernel, output := zerosMat image.length }

/-- One body iteration of the `max_pooling2d` loop. -/
def poolStep (ps st : Nat) (s : RunState) (i j : Nat) : Option RunState := do
  let v ← maxSlice? (slice2d s.image (i * st) (j * st) ps)
  let out ← writeCell s.output i j v
  return { s with output := out }

/-- The `max_pooling2d` loops run on the explicit state (the function takes
no kernel; the field is left empty). -/
def maxPoolRun (image : Mat) (ps st : Nat) : Option RunState :=
  if st = 0 then none
  else
    let outInt : Int := ((image.length : Int) - ps) / st + 1
    if outInt < 0 then none
    else
      (List.range outInt.toNat).foldlM (fun s i =>
        (List.range outInt.toNat).foldlM (fun s j => poolStep ps st s i j) s)
        { image := image, kernel := [], output := zerosMat outInt.toNat }

theorem foldlM_option_invariant {α β : Type} (P : β → Prop) (f : β → α → Option β)
    (hstep : ∀ b a b', P b → f b a = some b' → P b') :
    ∀ (l : List α) (b b' : β), P b → l.foldlM f b = some b' → P b'
  | [], b, b', hP, h => by
    simp only [List.foldlM_nil, Option.pure_def, Option.some.injEq] at h
    exact h ▸ hP
  | a :: l, b, b', hP, h => by
    simp only [List.foldlM_cons, Option.pure_def, Option.bind_eq_bind,
      Option.bind_eq_some] at h
    obtain ⟨b₁, hb₁, hrest⟩ := h
    exact foldlM_option_invariant P f hstep l b₁ b' (hstep b a b₁ hP hb₁) hrest

theorem convStep_frame (s : RunState) (i j : Nat) (s' : RunState)
    (h : convStep s i j = some s') : s'.image = s.image ∧ s'.kernel = s.kernel := by
  simp only [convStep, Option.pure_def, Option.bind_eq_bind, Option.bind_eq_some,
    Option.some.injEq] at h
  obtain ⟨v, _, out, _, rfl⟩ := h
  exact ⟨rfl, rfl⟩

theorem convPadStep_frame (p : Nat) (s : RunState) (i j : Nat) (s' : RunState)
    (h : convPadStep p s i j = some s') :
    s'.image = s.image ∧ s'.kernel = s.kernel := by
  simp only [convPadStep, Option.pure_def, Option.bind_eq_bind, Option.bind_eq_some,
    Option.some.injEq] at h
  obtain ⟨v, _, out, _, rfl⟩ := h
  exact ⟨rfl, rfl⟩

theorem poolStep_frame (ps st : Nat) (s : RunState) (i j : Nat) (s' : RunState)
    (h : poolStep ps st s i j = some s') :
    s'.image = s.image ∧ s'.kernel = s.kernel := by
  simp only [poolStep, Option.pure_def, Option.bind_eq_bind, Option.bind_eq_some,
    Option.some.injEq] at h
  obtain ⟨v, _, out, _, rfl⟩ := h
  exact ⟨rfl, rfl⟩

/-- C7: the three routines never write to their argument arrays: a run that
terminates normally leaves `image` (and `kernel`) exactly as passed in, all
writes going to the freshly allocated output. -/
theorem inputs_unchanged (image kernel : Mat) (p ps st : Nat) :
    (∀ s', conv2dRun image kernel = some s' →
      s'.image = image ∧ s'.kernel = kernel) ∧
    (∀ s', conv2dPadRun image kernel p = some s' →
      s'.image = image ∧ s'.kernel = kernel) ∧
    (∀ s', maxPoolRun image ps st = some s' → s'.image = image) := by
  refine ⟨?_, ?_, ?_⟩
  · intro s' h
    rw [conv2dRun] at h
    by_cases hneg : ((image.length : Int) - kernel.length + 1 < 0)
    · rw [if_pos hneg] at h
      exact absurd h (by simp)
    · rw [if_neg hneg] at h
      refine foldlM_option_invariant
        (fun s => s.image = image ∧ s.kernel = kernel) _ ?_ _ _ s' ⟨rfl, rfl⟩ h
      intro b a b' hP hstep
      refine foldlM_option_invariant
        (fun s => s.image = image ∧ s.kernel = kernel) _ ?_ _ _ b' hP hstep
      intro c a' c' hPc hc
      obtain ⟨h1, h2⟩ := convStep_frame c a a' c' hc
      exact ⟨h1.trans hPc.1, h2.trans hPc.2⟩
  · intro s' h
    rw [conv2dPadRun] at h
    refine foldlM_option_invariant
      (fun s => s.image = image ∧ s.kernel = kernel) _ ?_ _ _ s' ⟨rfl, rfl⟩ h
    intro b a b' hP hstep
    refine foldlM_option_invariant
      (fun s => s.image = image ∧ s.kernel = kernel) _ ?_ _ _ b' hP hstep
    intro c a' c' hPc hc
    obtain ⟨h1, h2⟩ := convPadStep_frame p c a a' c' hc
    exact ⟨h1.trans hPc.1, h2.trans hPc.2⟩
  · intro s' h
    rw [maxPoolRun] at h
    by_cases hst : st = 0
    · rw [if_pos hst] at h
      exact absurd h (by simp)
    · rw [if_neg hst] at h
      by_cases hneg : (((image.length : Int) - ps) / st + 1 < 0)
      · rw [if_pos hneg] at h
        exact absurd h (by simp)
      · rw [if_neg hneg] at h
        have := foldlM_option_invariant
          (fun s => s.image = image) _ ?_ _ _ s' rfl h
        · exact this
        · intro b a b' hP hstep
          refine foldlM_option_invariant (fun s => s.image = image) _ ?_ _ _ b' hP hstep
          intro c a' c' hPc hc
          exact (poolStep_frame ps st c a a' c' hc).1.trans hPc

/-- Witness for C7: a full run of the convolution loops on the notebook's
inputs ends with the input arrays untouched. -/
theorem inputs_unchanged_witness :
    RunState.image
        { image := input_image, kernel := filter_kernel,
          output := [[-6, -6, -6], [-6, -6, -6], [-6, -6, -6]] } = input_image ∧
    RunState.kernel
        { image := input_image, kernel := filter_kernel,
          output := [[-6, -6, -6], [-6, -6, -6], [-6, -6, -6]] } = filter_kernel :=
  (inputs_unchanged input_image filter_kernel 1 2 2).1
    { image := input_image, kernel := filter_kernel,
      output := [[-6, -6, -6], [-6, -6, -6], [-6, -6, -6]] } (by decide)

/-- C8: the three routines are deterministic pure functions: runs on equal
inputs give equal outputs, there being no hidden or shared state for them to
read. -/
theorem runs_deterministic (i1 i2 k1 k2 : Mat) (p1 p2 ps1 ps2 st1 st2 : Nat)
    (hi : i1 = i2) (hk : k1 = k2) (hp : p1 = p2) (hps : ps1 = ps2)
    (hst : st1 = st2) :
    convolution2d i1 k1 = convolution2d i2 k2 ∧
    convolution2d_with_padding i1 k1 p1 = convolution2d_with_padding i2 k2 p2 ∧
    max_pooling2d i1 ps1 st1 = max_pooling2d i2 ps2 st2 := by
  subst hi hk hp hps hst
  exact ⟨rfl, rfl, rfl⟩

/-- Witness for C8 at the notebook's inputs. -/
theorem runs_deterministic_witness :
    convolution2d input_image filter_kernel = convolution2d input_image filter_kernel ∧
    convolution2d_with_padding input_image filter_kernel 1 =
      convolution2d_with_padding input_image filter_kernel 1 ∧
    max_pooling2d input_image 2 2 = max_pooling2d input_image 2 2 :=
  runs_deterministic input_image input_image filter_kernel filter_kernel 1 1 2 2 2 2
    rfl rfl rfl rfl rfl

/-! ### Kernel additivity and the padding refinement -/

/-- Cellwise sum of two grids (the claim's `K1 + K2`). -/
def matAdd (a b : Mat) : Mat :=
  List.zipWith (fun r s => List.zipWith (· + ·) r s) a b

theorem matAdd_square (a b : Mat) (k : Nat) (ha : SquareMat a k)
    (hb : SquareMat b k) : SquareMat (matAdd a b) k := by
  obtain ⟨ha1, ha2⟩ := ha
  obtain ⟨hb1, hb2⟩ := hb
  constructor
  · simp [matAdd, List.length_zipWith, ha1, hb1]
  · intro r hr
    simp only [matAdd] at hr
    obtain ⟨m, hm, rfl⟩ := List.mem_iff_getElem.mp hr
    have hma : m < a.length := by
      simp only [List.length_zipWith] at hm
      omega
    have hmb : m < b.length := by
      simp only [List.length_zipWith] at hm
      omega
    rw [List.getElem_zipWith]
    simp [List.length_zipWith, ha2 _ (List.getElem_mem hma),
      hb2 _ (List.getElem_mem hmb)]

theorem entry_matAdd (a b : Mat) (k : Nat) (ha : SquareMat a k)
    (hb : SquareMat b k) (m n : Nat) (hm : m < k) (hn : n < k) :
    entry (matAdd a b) m n = entry a m n + entry b m n := by
  have hma : m < a.length := by rw [ha.1]; omega
  have hmb : m < b.length := by rw [hb.1]; omega
  have hrowa : a[m].length = k := ha.2 _ (List.getElem_mem hma)
  have hrowb : b[m].length = k := hb.2 _ (List.getElem_mem hmb)
  have h1 : m < (List.zipWith (fun r s => List.zipWith (· + ·) r s) a b).length := by
    simp only [List.length_zipWith]
    omega
  have h2 : n < (List.zipWith (fun (x y : Int) => x + y) a[m] b[m]).length := by
    simp only [List.length_zipWith, hrowa, hrowb]
    omega
  have hna : n < a[m].length := by omega
  have hnb : n < b[m].length := by omega
  simp only [matAdd, entry, List.getElem?_eq_getElem h1, List.getElem_zipWith,
    Option.getD_some, List.getElem?_eq_getElem h2,
    List.getElem?_eq_getElem hma, List.getElem?_eq_getElem hmb,
    List.getElem?_eq_getElem hna, List.getElem?_eq_getElem hnb]

theorem matAdd_map_range (sz : Nat) (f g : Nat → Nat → Int) :
    matAdd ((List.range sz).map fun i => (List.range sz).map fun j => f i j)
        ((List.range sz).map fun i => (List.range sz).map fun j => g i j)
      = (List.range sz).map fun i => (List.range sz).map fun j => f i j + g i j := by
  rw [matAdd, List.zipWith_map_left, List.zipWith_map_right, List.zipWith_same]
  apply List.map_congr_left
  intro i _
  rw [List.zipWith_map_left, List.zipWith_map_right, List.zipWith_same]

/-- C9: convolution is additive in the kernel: for kernels of equal shape,
convolving with the cellwise sum of the kernels gives the cellwise sum of
the two convolution outputs. -/
theorem convolution2d_kernel_additive (image K1 K2 : Mat) (N k : Nat)
    (hI : SquareMat image N) (h1 : SquareMat K1 k) (h2 : SquareMat K2 k)
    (hk : k ≤ N) :
    ∃ o1 o2, convolution2d image K1 = some o1 ∧ convolution2d image K2 = some o2 ∧
      convolution2d image (matAdd K1 K2) = some (matAdd o1 o2) := by
  have hadd := matAdd_square K1 K2 k h1 h2
  refine ⟨_, _, convolution2d_eq_spec image K1 N k hI h1 hk,
    convolution2d_eq_spec image K2 N k hI h2 hk, ?_⟩
  rw [convolution2d_eq_spec image (matAdd K1 K2) N k hI hadd hk]
  congr 1
  rw [convSpec, convSpec, convSpec, matAdd_map_range]
  apply List.map_congr_left
  intro i _
  apply List.map_congr_left
  intro j _
  rw [convCell, convCell, convCell, ← Finset.sum_add_distrib]
  apply Finset.sum_congr rfl
  intro m hm
  rw [← Finset.sum_add_distrib]
  apply Finset.sum_congr rfl
  intro n hn
  rw [entry_matAdd K1 K2 k h1 h2 m n (Finset.mem_range.mp hm)
    (Finset.mem_range.mp hn)]
  ring

/-- Witness for C9 at the notebook's image with the kernel added to itself. -/
theorem convolution2d_kernel_additive_witness :
    ∃ o1 o2, convolution2d input_image filter_kernel = some o1 ∧
      convolution2d input_image filter_kernel = some o2 ∧
      convolution2d input_image (matAdd filter_kernel filter_kernel) =
        some (matAdd o1 o2) :=
  convolution2d_kernel_additive input_image filter_kernel filter_kernel 5 3
    (by decide) (by decide) (by decide) (by decide)

/-- C10: for an odd kernel with 2·padding = kernel size − 1, the padding
variant coincides with `convolution2d` applied to the zero-padded image, and
a normal run's output has the input's N×N shape; the code fixes the output
size to N×N regardless of kernel and padding, so the agreement rests on that
relation between padding and kernel size. -/
theorem padding_refines_convolution (image kernel : Mat) (p : Nat)
    (hodd : kernel.length = 2 * p + 1) :
    convolution2d_with_padding image kernel p =
      convolution2d (pad image p) kernel ∧
    ∀ out, convolution2d_with_padding image kernel p = some out →
      out.length = image.length ∧ ∀ r ∈ out, r.length = image.length := by
  have hplen : (pad image p).length = image.length + 2 * p := by
    simp [pad]
    ring
  constructor
  · rw [convolution2d_with_padding, convolution2d, hplen, hodd]
    have hneg : ¬ (((image.length + 2 * p : Nat) : Int) - ((2 * p + 1 : Nat) : Int)
        + 1 < 0) := by omega
    rw [if_neg hneg]
    have ht : (((image.length + 2 * p : Nat) : Int) - ((2 * p + 1 : Nat) : Int)
        + 1).toNat = image.length := by omega
    rw [ht]
  · intro out hout
    rw [convolution2d_with_padding] at hout
    constructor
    · have := length_of_mapM _ _ _ hout
      simpa using this
    · intro r hr
      obtain ⟨i, _, hfi⟩ := mem_of_mapM _ _ _ hout r hr
      have := length_of_mapM _ _ _ hfi
      simpa using this

/-- Witness for C10 at the notebook's 3×3 kernel with one-pixel padding. -/
theorem padding_refines_convolution_witness :
    (convolution2d_with_padding input_image filter_kernel 1 =
      convolution2d (pad input_image 1) filter_kernel) ∧
    ∀ out, convolution2d_with_padding input_image filter_kernel 1 = some out →
      out.length = input_image.length ∧
        ∀ r ∈ out, r.length = input_image.length :=
  padding_refines_convolution input_image filter_kernel 1 (by decide)
